import Mathlib

/-!
Shallow embedding of the Facebook group watcher repository:
`fb_group_graph_api_downloader.py` (seen-post state handling, the new-post
selection loop of `run_once`, attachment image extraction, image download)
and the image-collection part of `selenium_fb_group_scraper.py`
(`FB_IMAGE_URL_REGEX` and `extract_single_post_from_dom`).

Pure functions are translated as Lean functions; the state file and the
network are passed explicitly as values describing what the Python code
observes of them.
-/

/-- JSON values as produced by `json.load`. Numbers are modelled as integers
(the state file only ever holds strings, so no claim depends on floats). -/
inductive JsonValue where
  | null
  | bool (b : Bool)
  | num (n : Int)
  | str (s : String)
  | arr (elems : List JsonValue)
  | obj (fields : List (String × JsonValue))

/-- Python single-quote character, used by `repr` of strings. -/
def pyQuote : String := String.singleton (Char.ofNat 39)

mutual

/-- CPython `repr` of a parsed JSON value. Exact for scalars; for strings
inside containers it renders quote-delimited without escaping (no claim
depends on container rendering). -/
def pyRepr : JsonValue → String
  | .null => "None"
  | .bool true => "True"
  | .bool false => "False"
  | .num n => toString n
  | .str s => pyQuote ++ s ++ pyQuote
  | .arr xs => "[" ++ String.intercalate ", " (pyReprList xs) ++ "]"
  | .obj fs => "\x7b" ++ String.intercalate ", " (pyReprFields fs) ++ "\x7d"

/-- Renders each element of a JSON array. -/
def pyReprList : List JsonValue → List String
  | [] => []
  | v :: vs => pyRepr v :: pyReprList vs

/-- Renders each `key: value` entry of a JSON object. -/
def pyReprFields : List (String × JsonValue) → List String
  | [] => []
  | (k, v) :: fs => (pyQuote ++ k ++ pyQuote ++ ": " ++ pyRepr v) :: pyReprFields fs

end

/-- Python `str()` applied to a value obtained from `json.load`, as in
`[str(x) for x in data]`: a string is returned as-is, other values through
their `repr`-style rendering. -/
def jsonStr : JsonValue → String
  | .str s => s
  | v => pyRepr v

/-- The observable state of the `seen_posts.json` state file.
`content v` means the file exists and its text parses as the JSON value `v`;
`invalid` means it exists but `json.load` raises; `unreadable` means opening
or reading it raises. -/
inductive FileState where
  | absent
  | unreadable
  | invalid
  | content (v : JsonValue)

/-- load_seen_posts (lines 109-119): returns `[]` when the file is missing
(`not state_file.is_file()`), on any read or parse exception, or when the
parsed value is not a list; otherwise stringifies every element. -/
def load_seen_posts : FileState → List String
  | .absent => []
  | .unreadable => []
  | .invalid => []
  | .content (.arr xs) => xs.map jsonStr
  | .content _ => []

/-- The string order Python `sorted` uses on `str`: lexicographic by code
point. Stated on the character lists, where the kernel can compute it; it
is equivalent to the Lean `String` order by `String.le_iff_toList_le`. -/
def pyStrLe (a b : String) : Prop := a.toList ≤ b.toList

instance : DecidableRel pyStrLe :=
  fun a b => (inferInstance : Decidable (a.toList ≤ b.toList))

instance : IsTotal String pyStrLe := ⟨fun a b => le_total a.toList b.toList⟩

instance : IsTrans String pyStrLe := ⟨fun _ _ _ h1 h2 => le_trans h1 h2⟩

/-- sorted(set(post_ids)) : the sorted list of the distinct ids. A stable
comparison sort over the total order gives the same list as CPython sorted. -/
def sortedDedup (xs : List String) : List String :=
  (xs.dedup).insertionSort pyStrLe

/-- save_seen_posts (lines 122-125): overwrites the state file with the JSON
array `sorted(set(post_ids))`. The result is the new file state. -/
def save_seen_posts (post_ids : List String) : FileState :=
  .content (.arr ((sortedDedup post_ids).map .str))

/-- A feed post as consumed by the dedup logic of run_once: the only field
that logic reads is `str(post.get("id", ""))`; `idStr` is that stringified
id (`""` when the id is missing). -/
structure Post where
  idStr : String
deriving DecidableEq

/-- The new-post selection loop of run_once (lines 324-333): walk the batch
in order; a post whose stringified id is empty or already in `seen_set` is
skipped; otherwise the post is processed, its id added to `seen_set` and
appended to `new_ids`. The Python set is modelled as a list (the code only
observes membership, and `add` of a fresh element is append). Returns the
final `(seen_set, new_ids)`. -/
def runOnceScan : List Post → List String → List String → List String × List String
  | [], seenSet, newIds => (seenSet, newIds)
  | post :: rest, seenSet, newIds =>
    let pid := post.idStr
    if pid = "" ∨ pid ∈ seenSet then runOnceScan rest seenSet newIds
    else runOnceScan rest (seenSet ++ [pid]) (newIds ++ [pid])

/-- run_once (lines 311-339) restricted to its effect on the state file:
with the fetched batch passed in, it returns early when the batch is empty,
runs the selection loop on the loaded seen set, and saves `list(seen_set)`
only when `new_ids` is non-empty. -/
def run_once (posts : List Post) (s : FileState) : FileState :=
  if posts.isEmpty then s
  else
    let seen := load_seen_posts s
    let scan := runOnceScan posts seen []
    if scan.2.isEmpty then s else save_seen_posts scan.1

/-- Modelled from the spec wording of `diffNew(batch, seen)`: the ids of the
posts of the batch whose id is not in `seen`, in batch order, with empty ids
excluded. This is the claimed selection, kept separate so it can be compared
with the implemented one. -/
def diffNewSpec (posts : List Post) (seen : List String) : List String :=
  (posts.map Post.idStr).filter (fun pid => decide (pid ≠ "" ∧ pid ∉ seen))

/-- First-occurrence deduplication, the semantics of `list(dict.fromkeys(urls))`:
keep each element at the position of its first occurrence. -/
def dedupF : List String → List String
  | [] => []
  | x :: xs => x :: (dedupF xs).filter (fun z => decide (z ≠ x))

/-- One key insertion into an ordered dict: an already-present key keeps its
original position, a new key goes to the end. -/
def insertKey (acc : List String) (x : String) : List String :=
  if x ∈ acc then acc else acc ++ [x]

/-- list(dict.fromkeys(urls)) as the dict is actually built: keys inserted
left to right. -/
def dedupFirst (xs : List String) : List String := xs.foldl insertKey []

/-- The `image` dict of a media record; the code only reads its `src` key
(`if "src" in img`), present here exactly when the key is present. -/
structure ImageField where
  src : Option String
deriving DecidableEq, Inhabited

/-- A `media` dict: the `image` sub-dict and `source` key the code reads,
plus `otherKeys`, true when the dict holds further keys (those only affect
the dict's truthiness). -/
structure Media where
  image : Option ImageField
  source : Option String
  otherKeys : Bool
deriving DecidableEq, Inhabited

/-- Python str.lower, stated per character so the kernel can compute it
(the strings it is applied to are ASCII field values and URLs). -/
def pyLower (s : String) : String := (s.toList.map Char.toLower).asString

/-- Truthiness of the media dict (`or media`): non-empty. -/
def Media.truthy (m : Media) : Bool :=
  m.image.isSome || m.source.isSome || m.otherKeys

/-- A record of `subattachments.data`; the code reads only its `media`. -/
structure SubAttachment where
  media : Option Media
deriving DecidableEq, Inhabited

/-- A record of `attachments.data`; `media_type`, `media` and the flattened
`subattachments.data` list (absent or falsy layers give `[]`). -/
structure Attachment where
  media_type : Option String
  media : Option Media
  subattachments : List SubAttachment
deriving DecidableEq, Inhabited

/-- The `attachments` argument: its `data` list (an absent or falsy
attachments dict, or a missing `data` key, give `[]`). -/
structure Attachments where
  data : List Attachment
deriving DecidableEq, Inhabited

/-- The first-match field lookup shared by a main media record and a
sub-attachment record (lines 187-191 and 196-201): `media.image.src` first,
else `media.source`. URL values are modelled after their `str(...)`. -/
def mediaUrl (m : Media) : Option String :=
  let img := m.image.getD default
  match img.src with
  | some s => some s
  | none => m.source

/-- URLs the main-media block of one attachment record appends
(lines 179-191): guarded by `media_type in {"photo", "share", "album"} or
media`, then the first-match lookup. -/
def attachmentMainUrls (att : Attachment) : List String :=
  let mt := pyLower (att.media_type.getD "")
  let media := att.media.getD default
  if (mt = "photo" || mt = "share" || mt = "album" || media.truthy) then
    match mediaUrl media with
    | some u => [u]
    | none => []
  else []

/-- URLs one sub-attachment record appends (lines 195-201). -/
def subAttachmentUrls (sub : SubAttachment) : List String :=
  match mediaUrl (sub.media.getD default) with
  | some u => [u]
  | none => []

/-- Everything one attachment record appends to `urls`: main media first,
then its sub-attachments in order. -/
def attachmentUrls (att : Attachment) : List String :=
  attachmentMainUrls att ++ (att.subattachments.map subAttachmentUrls).flatten

/-- The `urls` list as built by the loop of extract_images_from_attachments
before deduplication. -/
def rawAttachmentUrls (a : Attachments) : List String :=
  (a.data.map attachmentUrls).flatten

/-- extract_images_from_attachments (lines 169-204): collect the URLs per
record, then `list(dict.fromkeys(urls))`. -/
def extract_images_from_attachments (a : Attachments) : List String :=
  dedupFirst (rawAttachmentUrls a)

/-- The ambient effects download_image can run into: the mkdir or the HTTP
GET raising, or a GET response with the given status and body bytes, where
`writeRaises` makes the final file write raise. -/
inductive DownloadEnv where
  | mkdirRaises
  | getRaises
  | response (status : Nat) (content : List Nat) (writeRaises : Bool)

/-- The candidate extensions, in the order the loop tries them. -/
def extensionCandidates : List String := [".jpg", ".jpeg", ".png", ".webp"]

/-- Python substring containment, `needle in hay`. -/
def strContainsSub (hay needle : String) : Bool :=
  decide (needle.toList <:+: hay.toList)

/-- The extension-guessing loop of download_image (lines 234-238):
`ext = ".jpg"`, then the first candidate occurring in `url.lower()` wins. -/
def guessExtension (url : String) : String :=
  (extensionCandidates.find? (fun c => strContainsSub (pyLower url) c)).getD ".jpg"

/-- Modelled from the claim wording for the extension guess: the first of
.jpg, .jpeg, .png, .webp occurring in the lowercased URL, defaulting to
.jpg when none matches. Kept separate to compare with the implemented loop. -/
def guessExtensionSpec (low : String) : String :=
  if strContainsSub low ".jpg" then ".jpg"
  else if strContainsSub low ".jpeg" then ".jpeg"
  else if strContainsSub low ".png" then ".png"
  else if strContainsSub low ".webp" then ".webp"
  else ".jpg"

/-- download_image (lines 222-246): any exception along the way returns
None, as does a non-200 status; on success the file written is named by the
caller prefix plus the guessed extension and holds the response bytes.
The result models (filename relative to dest_dir, bytes written). -/
def download_image (env : DownloadEnv) (url : String) (pre : String) :
    Option (String × List Nat) :=
  match env with
  | .mkdirRaises => none
  | .getRaises => none
  | .response status content writeRaises =>
    if status ≠ 200 then none
    else if writeRaises then none
    else some (pre ++ guessExtension url, content)

/-- Characters admitted by the character class of FB_IMAGE_URL_REGEX under
re.IGNORECASE. The pattern is the raw string
r"https?://[^\"'\\s]+?\\.(?:jpg|jpeg|png|webp)(?:\\?[^\"'\\s]*)?", so inside
the class the two characters backslash-backslash denote one literal
backslash and the following s is the literal letter: excluded are the
double quote, the single quote, the backslash and the letter s/S. -/
def urlClassChar (c : Char) : Bool :=
  !(c = '"' || c = Char.ofNat 39 || c = '\\' || c.toLower = 's')

/-- Length of the greedy run of class characters. -/
def classRunLen : List Char → Nat
  | [] => 0
  | c :: rest => if urlClassChar c then classRunLen rest + 1 else 0

/-- The trailing optional group of the pattern: greedy and always matched;
it consumes an optional literal backslash, then a run of class characters. -/
def optGroupLen : List Char → Nat
  | '\\' :: rest => 1 + classRunLen rest
  | cs => classRunLen cs

/-- Case-insensitive literal match of `lit` (given lowercase) at the head. -/
def lowerLitAt (lit : List Char) (cs : List Char) : Bool :=
  match lit, cs with
  | [], _ => true
  | _ :: _, [] => false
  | p :: ps, c :: rest => p = c.toLower && lowerLitAt ps rest

/-- The extension alternation of the pattern with IGNORECASE, followed by
the trailing optional group; alternatives are tried in pattern order (they
are mutually exclusive as literals). Returns the length consumed. -/
def extAndOptLen (cs : List Char) : Option Nat :=
  if lowerLitAt "jpg".toList cs then some (3 + optGroupLen (cs.drop 3))
  else if lowerLitAt "jpeg".toList cs then some (4 + optGroupLen (cs.drop 4))
  else if lowerLitAt "png".toList cs then some (3 + optGroupLen (cs.drop 3))
  else if lowerLitAt "webp".toList cs then some (4 + optGroupLen (cs.drop 4))
  else none

/-- Tail of the pattern after the lazy class run: the two pattern characters
backslash-backslash match one literal backslash, the dot matches any
character but a newline, then the extension alternation. -/
def tailLen : List Char → Option Nat
  | '\\' :: c :: rest =>
    if c = '\n' then none
    else (extAndOptLen rest).map (fun n => n + 2)
  | _ => none

/-- The lazy one-or-more class run followed by the tail: the shortest class
run whose continuation matches wins. -/
def lazyRunLen : List Char → Option Nat
  | [] => none
  | c :: rest =>
    if urlClassChar c then
      match tailLen rest with
      | some n => some (n + 1)
      | none => (lazyRunLen rest).map (fun n => n + 1)
    else none

/-- The literal "://" followed by the lazy run. -/
def afterSchemeLen : List Char → Option Nat
  | ':' :: '/' :: '/' :: rest => (lazyRunLen rest).map (fun n => n + 3)
  | _ => none

/-- Greedy optional s (IGNORECASE), backtracking to the branch without it
when the rest fails. -/
def afterHttpLen (cs : List Char) : Option Nat :=
  match cs with
  | c :: rest =>
    if c.toLower = 's' then
      match afterSchemeLen rest with
      | some n => some (n + 1)
      | none => afterSchemeLen cs
    else afterSchemeLen cs
  | [] => none

/-- Length of the match of FB_IMAGE_URL_REGEX starting exactly at the head
of cs, following the backtracking priorities of Python re (lazy +?, greedy
?), or none when no match starts here. -/
def matchLenAt (cs : List Char) : Option Nat :=
  if lowerLitAt "http".toList cs then
    (afterHttpLen (cs.drop 4)).map (fun n => n + 4)
  else none

/-- Scanner of re.findall: left to right, emit each leftmost match and
resume right after it. The fuel starts at the text length and every step
consumes at least one character, so it never runs out before the text. -/
def findallAux : Nat → List Char → List String
  | 0, _ => []
  | _ + 1, [] => []
  | fuel + 1, c :: rest =>
    match matchLenAt (c :: rest) with
    | some n => ((c :: rest).take n).asString :: findallAux fuel ((c :: rest).drop n)
    | none => findallAux fuel rest

/-- FB_IMAGE_URL_REGEX.findall on a string. -/
def fbImageUrlFindall (s : String) : List String :=
  findallAux s.toList.length s.toList

/-- html.unescape restricted to the five predefined XML entities; it agrees
with CPython on inputs using no other entity reference. -/
def unescapeAux : List Char → List Char
  | '&' :: 'a' :: 'm' :: 'p' :: ';' :: rest => '&' :: unescapeAux rest
  | '&' :: 'l' :: 't' :: ';' :: rest => '<' :: unescapeAux rest
  | '&' :: 'g' :: 't' :: ';' :: rest => '>' :: unescapeAux rest
  | '&' :: 'q' :: 'u' :: 'o' :: 't' :: ';' :: rest => '"' :: unescapeAux rest
  | '&' :: '#' :: '3' :: '9' :: ';' :: rest => Char.ofNat 39 :: unescapeAux rest
  | c :: rest => c :: unescapeAux rest
  | [] => []

/-- html.unescape as used on each regex match. -/
def htmlUnescape (s : String) : String := (unescapeAux s.toList).asString

/-- Python str.startswith, stated on character lists so the kernel can
compute it. -/
def pyStartsWith (s pre : String) : Bool := pre.toList.isPrefixOf s.toList

/-- The chosen article container as the extraction code observes it: the
src attribute of each descendant img element in DOM order (the code turns a
missing attribute into "" via `or ""`), and the container innerHTML. -/
structure DomContainer where
  imgSrcs : List String
  innerHTML : String

/-- The image-collection part of extract_single_post_from_dom (lines
158-178): the DOM img pass skips empty and data: URLs and appends unseen
src values; then, when innerHTML is non-empty, every regex match is
HTML-entity-decoded and appended when unseen. -/
def extractDomImages (c : DomContainer) : List String :=
  let pass1 := c.imgSrcs.foldl
    (fun acc src =>
      if src = "" then acc
      else if pyStartsWith src "data:" then acc
      else if src ∈ acc then acc
      else acc ++ [src]) []
  if c.innerHTML = "" then pass1
  else (fbImageUrlFindall c.innerHTML).foldl
    (fun acc m =>
      let cleanUrl := htmlUnescape m
      if cleanUrl ∈ acc then acc else acc ++ [cleanUrl]) pass1

/-! Helper lemmas on first-occurrence deduplication. -/

theorem dedupF_mem {x : String} {l : List String} : x ∈ dedupF l ↔ x ∈ l := by
  induction l with
  | nil => simp [dedupF]
  | cons y l ih =>
    by_cases hxy : x = y
    · subst hxy; simp [dedupF]
    · simp [dedupF, List.mem_filter, ih, hxy]

theorem dedupF_nodup (l : List String) : (dedupF l).Nodup := by
  induction l with
  | nil => simp [dedupF]
  | cons y l ih =>
    refine List.nodup_cons.mpr ⟨?_, List.Nodup.filter _ ih⟩
    intro hy
    rcases List.mem_filter.mp hy with ⟨_, h⟩
    simp at h

theorem dedupF_filter (q : String → Bool) (l : List String) :
    dedupF (l.filter q) = (dedupF l).filter q := by
  induction l with
  | nil => simp [dedupF]
  | cons y l ih =>
    by_cases hq : q y
    · rw [List.filter_cons_of_pos hq]
      simp only [dedupF]
      rw [List.filter_cons_of_pos hq]
      congr 1
      rw [ih, List.filter_filter, List.filter_filter]
      exact List.filter_congr (fun a _ => Bool.and_comm _ _)
    · rw [List.filter_cons_of_neg hq]
      simp only [dedupF]
      rw [List.filter_cons_of_neg hq, ih, List.filter_filter]
      refine List.filter_congr (fun a _ => ?_)
      by_cases hay : a = y
      · subst hay
        simp [Bool.eq_false_iff.mpr hq]
      · simp [hay]

theorem foldl_insertKey (l : List String) : ∀ acc : List String,
    l.foldl insertKey acc = acc ++ (dedupF l).filter (fun z => decide (z ∉ acc)) := by
  induction l with
  | nil => intro acc; simp [dedupF]
  | cons y l ih =>
    intro acc
    rw [List.foldl_cons]
    by_cases hy : y ∈ acc
    · rw [show insertKey acc y = acc from if_pos hy, ih acc]
      congr 1
      simp only [dedupF]
      rw [List.filter_cons_of_neg (by simpa using hy), List.filter_filter]
      refine (List.filter_congr (fun a _ => ?_)).symm
      by_cases hay : a = y
      · subst hay; simp [hy]
      · simp [hay]
    · rw [show insertKey acc y = acc ++ [y] from if_neg hy, ih (acc ++ [y])]
      simp only [dedupF]
      rw [List.filter_cons_of_pos (by simpa using hy), List.append_assoc]
      congr 1
      rw [List.singleton_append, List.filter_filter]
      congr 1
      refine List.filter_congr (fun a _ => ?_)
      by_cases hay : a = y
      · subst hay; simp [hy]
      · simp [hay, List.mem_append]

theorem dedupFirst_eq_dedupF (l : List String) : dedupFirst l = dedupF l := by
  rw [dedupFirst, foldl_insertKey]
  simp

theorem dedupF_pairwise_indexOf (l : List String) :
    List.Pairwise (fun u v => l.indexOf u < l.indexOf v) (dedupF l) := by
  induction l with
  | nil => simp [dedupF]
  | cons y l ih =>
    simp only [dedupF]
    refine List.pairwise_cons.mpr ⟨?_, ?_⟩
    · intro v hv
      have hvy : v ≠ y := by
        rcases List.mem_filter.mp hv with ⟨_, h⟩
        simpa using h
      rw [List.indexOf_cons_self, List.indexOf_cons_ne _ (Ne.symm hvy)]
      exact Nat.succ_pos _
    · refine (List.Pairwise.sublist (List.filter_sublist _) ih).imp_of_mem ?_
      intro a b ha hb hr
      have hay : a ≠ y := by
        rcases List.mem_filter.mp ha with ⟨_, h⟩; simpa using h
      have hby : b ≠ y := by
        rcases List.mem_filter.mp hb with ⟨_, h⟩; simpa using h
      rw [List.indexOf_cons_ne _ (Ne.symm hay), List.indexOf_cons_ne _ (Ne.symm hby)]
      exact Nat.succ_lt_succ hr

/-! Helper lemmas on the selection loop. -/

theorem diffNewSpec_cons_skip {p : Post} {seen : List String} (rest : List Post)
    (h : p.idStr = "" ∨ p.idStr ∈ seen) :
    diffNewSpec (p :: rest) seen = diffNewSpec rest seen := by
  simp only [diffNewSpec, List.map_cons]
  rw [List.filter_cons_of_neg]
  simp
  tauto

theorem diffNewSpec_cons_take {p : Post} {seen : List String} (rest : List Post)
    (h : ¬(p.idStr = "" ∨ p.idStr ∈ seen)) :
    diffNewSpec (p :: rest) seen = p.idStr :: diffNewSpec rest seen := by
  simp only [diffNewSpec, List.map_cons]
  rw [List.filter_cons_of_pos]
  simp
  tauto

theorem diffNewSpec_seen_append (rest : List Post) (seen : List String) (pid : String) :
    diffNewSpec rest (seen ++ [pid]) =
      (diffNewSpec rest seen).filter (fun z => decide (z ≠ pid)) := by
  simp only [diffNewSpec, List.filter_filter]
  refine List.filter_congr (fun a _ => ?_)
  by_cases h1 : a = pid
  · subst h1; simp [List.mem_append]
  · by_cases h2 : a = ""
    · subst h2; simp [h1]
    · simp [List.mem_append, h1, h2]

theorem runOnceScan_eq (posts : List Post) : ∀ seen acc : List String,
    runOnceScan posts seen acc =
      (seen ++ dedupF (diffNewSpec posts seen), acc ++ dedupF (diffNewSpec posts seen)) := by
  induction posts with
  | nil => intro seen acc; simp [runOnceScan, diffNewSpec, dedupF]
  | cons p rest ih =>
    intro seen acc
    by_cases h : p.idStr = "" ∨ p.idStr ∈ seen
    · show (if p.idStr = "" ∨ p.idStr ∈ seen then runOnceScan rest seen acc
        else runOnceScan rest (seen ++ [p.idStr]) (acc ++ [p.idStr])) = _
      rw [if_pos h, ih, diffNewSpec_cons_skip rest h]
    · show (if p.idStr = "" ∨ p.idStr ∈ seen then runOnceScan rest seen acc
        else runOnceScan rest (seen ++ [p.idStr]) (acc ++ [p.idStr])) = _
      rw [if_neg h, ih, diffNewSpec_cons_take rest h, diffNewSpec_seen_append,
        dedupF_filter]
      show _ = (seen ++ dedupF (p.idStr :: diffNewSpec rest seen),
        acc ++ dedupF (p.idStr :: diffNewSpec rest seen))
      simp only [dedupF, List.append_assoc, List.singleton_append]

theorem runOnceScan_newIds (posts : List Post) (seen : List String) :
    (runOnceScan posts seen []).2 = dedupF (diffNewSpec posts seen) := by
  rw [runOnceScan_eq]
  simp

theorem runOnceScan_seen (posts : List Post) (seen : List String) :
    (runOnceScan posts seen []).1 = seen ++ dedupF (diffNewSpec posts seen) := by
  rw [runOnceScan_eq]

/-! Helper lemmas on persistence. -/

theorem load_save (ids : List String) :
    load_seen_posts (save_seen_posts ids) = sortedDedup ids := by
  show ((sortedDedup ids).map JsonValue.str).map jsonStr = sortedDedup ids
  rw [List.map_map]
  have h : jsonStr ∘ JsonValue.str = id := funext (fun _ => rfl)
  rw [h, List.map_id]

theorem mem_sortedDedup {x : String} {ids : List String} :
    x ∈ sortedDedup ids ↔ x ∈ ids := by
  rw [sortedDedup, (List.perm_insertionSort _ _).mem_iff, List.mem_dedup]

theorem sortedDedup_sorted (ids : List String) :
    List.Pairwise (fun a b : String => a ≤ b) (sortedDedup ids) :=
  (List.sorted_insertionSort pyStrLe ids.dedup).imp
    (fun h => String.le_iff_toList_le.mpr h)

theorem sortedDedup_nodup (ids : List String) : (sortedDedup ids).Nodup :=
  (List.perm_insertionSort _ _).nodup_iff.mpr ids.nodup_dedup

theorem sortedDedup_eq_of_toFinset {a b : List String} (h : a.toFinset = b.toFinset) :
    sortedDedup a = sortedDedup b := by
  have hperm : a.dedup.Perm b.dedup := List.toFinset_eq_iff_perm_dedup.mp h
  have p1 : (sortedDedup a).Perm (sortedDedup b) :=
    ((List.perm_insertionSort pyStrLe a.dedup).trans hperm).trans
      (List.perm_insertionSort pyStrLe b.dedup).symm
  exact List.eq_of_perm_of_sorted p1 (sortedDedup_sorted a) (sortedDedup_sorted b)

theorem dedupF_eq_self {l : List String} (h : l.Nodup) : dedupF l = l := by
  induction l with
  | nil => rfl
  | cons x l ih =>
    rcases List.nodup_cons.mp h with ⟨hx, hl⟩
    simp only [dedupF, ih hl]
    congr 1
    refine List.filter_eq_self.mpr (fun a ha => ?_)
    simp only [decide_eq_true_eq]
    intro hax
    exact hx (hax ▸ ha)

/-- C1, counterexample: on a batch with a duplicated non-empty id the
selection run_once implements differs from the claimed one (the posts whose
stringified id is non-empty and not in the seen-set, in batch order): the
claimed selection holds the id twice, run_once processes it once. -/
theorem c1_counterexample :
    (runOnceScan [⟨"a"⟩, ⟨"a"⟩] [] []).2 ≠ diffNewSpec [⟨"a"⟩, ⟨"a"⟩] [] := by
  decide

/-- C1 (amended): the new-post selection of run_once is the claimed
order-preserving filter (id non-empty and not in the loaded seen-set) with
later duplicate occurrences of an id removed in favour of the first; on a
batch without duplicated selected ids it is exactly the claimed filter; the
empty id is never among the ids added to the persisted seen-set. -/
theorem c1_selection (posts : List Post) (seen : List String) :
    (runOnceScan posts seen []).2 = dedupF (diffNewSpec posts seen) ∧
    ((diffNewSpec posts seen).Nodup →
      (runOnceScan posts seen []).2 = diffNewSpec posts seen) ∧
    "" ∉ (runOnceScan posts seen []).2 := by
  refine ⟨runOnceScan_newIds posts seen, ?_, ?_⟩
  · intro hnd
    rw [runOnceScan_newIds]
    exact dedupF_eq_self hnd
  · rw [runOnceScan_newIds]
    intro hmem
    rcases List.mem_filter.mp (dedupF_mem.mp hmem) with ⟨_, h⟩
    simp at h

/-- C1 witness: a duplicate-free batch where the amended selection applies
at a concrete input. -/
theorem c1_selection_witness :
    (runOnceScan [⟨"a"⟩, ⟨"b"⟩] ["b"] []).2 = diffNewSpec [⟨"a"⟩, ⟨"b"⟩] ["b"] :=
  (c1_selection [⟨"a"⟩, ⟨"b"⟩] ["b"]).2.1 (by decide)

theorem run_once_eq (posts : List Post) (s : FileState) :
    run_once posts s =
      if (runOnceScan posts (load_seen_posts s) []).2.isEmpty then s
      else save_seen_posts (runOnceScan posts (load_seen_posts s) []).1 := by
  by_cases hp : posts.isEmpty
  · rw [List.isEmpty_iff] at hp
    subst hp
    rfl
  · show (if posts.isEmpty then s
      else
        let seen := load_seen_posts s
        let scan := runOnceScan posts seen []
        if scan.2.isEmpty then s else save_seen_posts scan.1) = _
    rw [if_neg (by simpa using hp)]

/-- C2: running the cycle twice on the same batch selects nothing the second
time; once the first cycle has committed, every selectable post of the
batch has its id in the reloaded seen-set, so the second selection is
empty. -/
theorem c2_second_cycle_empty (posts : List Post) (s : FileState) :
    (runOnceScan posts (load_seen_posts (run_once posts s)) []).2 = [] := by
  have hmem : ∀ a ∈ posts.map Post.idStr, a ≠ "" →
      a ∈ load_seen_posts (run_once posts s) := by
    intro a ha hae
    rw [run_once_eq]
    by_cases hn : (runOnceScan posts (load_seen_posts s) []).2.isEmpty
    · rw [if_pos hn]
      rw [runOnceScan_newIds, List.isEmpty_iff] at hn
      by_contra hnotin
      have h1 : a ∈ diffNewSpec posts (load_seen_posts s) :=
        List.mem_filter.mpr ⟨ha, by simp [hae, hnotin]⟩
      have h2 := dedupF_mem.mpr h1
      rw [hn] at h2
      simp at h2
    · rw [if_neg hn, load_save, mem_sortedDedup, runOnceScan_seen, List.mem_append]
      by_cases hs : a ∈ load_seen_posts s
      · exact Or.inl hs
      · exact Or.inr (dedupF_mem.mpr (List.mem_filter.mpr ⟨ha, by simp [hae, hs]⟩))
  rw [runOnceScan_newIds]
  have hD : diffNewSpec posts (load_seen_posts (run_once posts s)) = [] := by
    simp only [diffNewSpec]
    rw [List.filter_eq_nil_iff]
    intro a ha
    simp only [decide_eq_true_eq]
    rintro ⟨h1, h2⟩
    exact h2 (hmem a ha h1)
  rw [hD]
  rfl

/-- C3: across a run_once cycle the persisted seen-set never shrinks, and
the state file is rewritten (a full overwrite with the merged set) exactly
when at least one new id was added; with no new posts, it is untouched. -/
theorem c3_monotone_write_policy (posts : List Post) (s : FileState) :
    (∀ x, x ∈ load_seen_posts s → x ∈ load_seen_posts (run_once posts s)) ∧
    ((runOnceScan posts (load_seen_posts s) []).2 = [] → run_once posts s = s) ∧
    ((runOnceScan posts (load_seen_posts s) []).2 ≠ [] →
      run_once posts s =
        save_seen_posts (runOnceScan posts (load_seen_posts s) []).1) := by
  refine ⟨?_, ?_, ?_⟩
  · intro x hx
    rw [run_once_eq]
    by_cases hn : (runOnceScan posts (load_seen_posts s) []).2.isEmpty
    · rw [if_pos hn]
      exact hx
    · rw [if_neg hn, load_save, mem_sortedDedup, runOnceScan_seen, List.mem_append]
      exact Or.inl hx
  · intro h
    rw [run_once_eq, if_pos (by rw [h]; rfl)]
  · intro h
    rw [run_once_eq, if_neg (by simpa [List.isEmpty_iff] using h)]

/-- C3 witness: concrete cycles exercising the monotonicity, the
no-new-posts branch and the rewrite branch. -/
theorem c3_monotone_write_policy_witness :
    "a" ∈ load_seen_posts
      (run_once [⟨"b"⟩] (FileState.content (.arr [.str "a"]))) ∧
    run_once [] (FileState.content (.arr [.str "a"])) =
      FileState.content (.arr [.str "a"]) ∧
    run_once [⟨"b"⟩] (FileState.content (.arr [.str "a"])) =
      save_seen_posts
        (runOnceScan [⟨"b"⟩]
          (load_seen_posts (FileState.content (.arr [.str "a"]))) []).1 :=
  ⟨(c3_monotone_write_policy [⟨"b"⟩] (FileState.content (.arr [.str "a"]))).1
      "a" (by decide),
   (c3_monotone_write_policy [] (FileState.content (.arr [.str "a"]))).2.1
      (by decide),
   (c3_monotone_write_policy [⟨"b"⟩] (FileState.content (.arr [.str "a"]))).2.2
      (by decide)⟩

/-- C4: a save/load round trip yields exactly the set of the given ids,
independent of order and duplicates; the persisted serialization is the
sorted deduplicated list, so two id lists with one underlying set produce
identical file contents. -/
theorem c4_roundtrip_stable (ids ids2 : List String)
    (h : ids.toFinset = ids2.toFinset) :
    (load_seen_posts (save_seen_posts ids)).toFinset = ids.toFinset ∧
    load_seen_posts (save_seen_posts ids) = sortedDedup ids ∧
    (sortedDedup ids).Nodup ∧
    List.Pairwise (fun a b : String => a ≤ b) (sortedDedup ids) ∧
    save_seen_posts ids = save_seen_posts ids2 := by
  refine ⟨?_, load_save ids, sortedDedup_nodup ids, sortedDedup_sorted ids, ?_⟩
  · rw [load_save]
    ext x
    simp [List.mem_toFinset, mem_sortedDedup]
  · show FileState.content (.arr ((sortedDedup ids).map .str)) = _
    rw [sortedDedup_eq_of_toFinset h]
    rfl

/-- C4 witness: two concrete lists with the same underlying set, one with a
duplicate and permuted order. -/
theorem c4_roundtrip_stable_witness :
    save_seen_posts ["b", "a", "b"] = save_seen_posts ["a", "b"] :=
  (c4_roundtrip_stable ["b", "a", "b"] ["a", "b"] (by decide)).2.2.2.2

/-- C5: load_seen_posts is total and fail-open: every file state that is
not a parsed JSON array loads as the empty list, and a parsed array loads
as its elements stringified. -/
theorem c5_load_fail_open (s : FileState) (xs : List JsonValue) :
    ((∀ ys : List JsonValue, s ≠ .content (.arr ys)) → load_seen_posts s = []) ∧
    load_seen_posts (.content (.arr xs)) = xs.map jsonStr := by
  refine ⟨?_, rfl⟩
  intro h
  cases s with
  | absent => rfl
  | unreadable => rfl
  | invalid => rfl
  | content v =>
    cases v with
    | null => rfl
    | bool b => rfl
    | num n => rfl
    | str s => rfl
    | obj fs => rfl
    | arr ys => exact absurd rfl (h ys)

/-- C5 witness: a JSON object (not a list) loads as empty; a string array
loads as its elements. -/
theorem c5_load_fail_open_witness :
    load_seen_posts (.content (.obj [("a", .num 1)])) = [] ∧
    load_seen_posts (.content (.arr [.str "a", .num 2])) = ["a", "2"] :=
  ⟨(c5_load_fail_open (.content (.obj [("a", .num 1)])) []).1
      (fun _ys hy => JsonValue.noConfusion (FileState.content.inj hy)),
   (c5_load_fail_open (.content (.obj [])) [.str "a", .num 2]).2⟩

/-- The scenario of the DOM two-pass claim: a chosen container holding one
img element with src X, and an innerHTML that also holds the bare URL
https://cdn/y.jpg, which is not present as an img element. -/
def c6Container : DomContainer :=
  ⟨["https://host/pic.png"],
   "<div><img src=\"https://host/pic.png\"></div> https://cdn/y.jpg"⟩

/-- C6: on the two-pass scenario the extraction returns only the img src;
the regex pass contributes nothing because FB_IMAGE_URL_REGEX, compiled
from a raw string holding doubled backslashes, only matches tokens with a
literal backslash before the extension (third conjunct: such a token is
matched), so the bare image URL is never recovered. -/
theorem c6_regex_pass_finds_nothing :
    extractDomImages c6Container = ["https://host/pic.png"] ∧
    fbImageUrlFindall c6Container.innerHTML = [] ∧
    fbImageUrlFindall "http://a\\xjpg" = ["http://a\\xjpg"] := by
  refine ⟨by decide, by decide, by decide⟩

/-- C7: attachment image extraction returns the discovered URLs with
duplicates removed, each member surviving exactly once, ordered by the
position of its first occurrence in the pre-deduplication sequence. -/
theorem c7_extract_first_seen_dedup (a : Attachments) :
    (∀ u, u ∈ extract_images_from_attachments a ↔ u ∈ rawAttachmentUrls a) ∧
    List.Pairwise
      (fun u v =>
        (rawAttachmentUrls a).indexOf u < (rawAttachmentUrls a).indexOf v)
      (extract_images_from_attachments a) ∧
    (∀ u, u ∈ extract_images_from_attachments a →
      List.count u (extract_images_from_attachments a) = 1) := by
  have he : extract_images_from_attachments a = dedupF (rawAttachmentUrls a) :=
    dedupFirst_eq_dedupF (rawAttachmentUrls a)
  refine ⟨?_, ?_, ?_⟩
  · intro u
    rw [he]
    exact dedupF_mem
  · rw [he]
    exact dedupF_pairwise_indexOf _
  · intro u hu
    rw [he] at hu ⊢
    exact List.count_eq_one_of_mem (dedupF_nodup _) hu

/-- An attachment source holding one URL both as the main media image and
inside a sub-attachment, the scenario of the dedup claim. -/
def c7Attachments : Attachments :=
  ⟨[⟨some "photo", some ⟨some ⟨some "u"⟩, none, false⟩,
     [⟨some ⟨some ⟨some "u"⟩, none, false⟩⟩]⟩]⟩

/-- C7 witness: the duplicated URL appears exactly once in the output. -/
theorem c7_extract_first_seen_dedup_witness :
    List.count "u" (extract_images_from_attachments c7Attachments) = 1 :=
  (c7_extract_first_seen_dedup c7Attachments).2.2 "u" (by decide)

/-- C8: when a media record carries both image.src = A and source = B, the
extractor takes A and not B, for the main media of a record with any
media_type and any sub-attachments, for a sub-attachment record, and
through the full extraction of such a source. -/
theorem c8_field_precedence (A B : String) (mt : Option String) (ok : Bool)
    (subs : List SubAttachment) :
    mediaUrl ⟨some ⟨some A⟩, some B, ok⟩ = some A ∧
    attachmentMainUrls ⟨mt, some ⟨some ⟨some A⟩, some B, ok⟩, subs⟩ = [A] ∧
    subAttachmentUrls ⟨some ⟨some ⟨some A⟩, some B, ok⟩⟩ = [A] ∧
    extract_images_from_attachments
      ⟨[⟨mt, some ⟨some ⟨some A⟩, some B, ok⟩,
         [⟨some ⟨some ⟨some A⟩, some B, ok⟩⟩]⟩]⟩ = [A] := by
  refine ⟨rfl, ?_, rfl, ?_⟩
  · simp [attachmentMainUrls, Media.truthy, mediaUrl]
  · simp [extract_images_from_attachments, rawAttachmentUrls, attachmentUrls,
      attachmentMainUrls, subAttachmentUrls, Media.truthy, mediaUrl,
      dedupFirst, insertKey]

theorem guessExtension_eq_spec (url : String) :
    guessExtension url = guessExtensionSpec (pyLower url) := by
  simp only [guessExtension, guessExtensionSpec, extensionCandidates, List.find?]
  by_cases h1 : strContainsSub (pyLower url) ".jpg" <;>
    by_cases h2 : strContainsSub (pyLower url) ".jpeg" <;>
      by_cases h3 : strContainsSub (pyLower url) ".png" <;>
        by_cases h4 : strContainsSub (pyLower url) ".webp" <;>
          simp [h1, h2, h3, h4]

theorem guessExtension_mem (url : String) :
    guessExtension url ∈ extensionCandidates := by
  rw [guessExtension_eq_spec, guessExtensionSpec]
  split_ifs <;> simp [extensionCandidates]

/-- C9: download_image maps every failure (mkdir or GET exception, non-200
status, write exception) to none instead of raising, and on success writes
the response bytes to a file named by the caller prefix plus the guessed
extension; the guess is the first of .jpg, .jpeg, .png, .webp occurring in
the lowercased URL, defaulting to .jpg. -/
theorem c9_download_behavior (url pre : String) (status : Nat)
    (content : List Nat) (wr : Bool) :
    download_image .mkdirRaises url pre = none ∧
    download_image .getRaises url pre = none ∧
    (status ≠ 200 → download_image (.response status content wr) url pre = none) ∧
    download_image (.response 200 content true) url pre = none ∧
    download_image (.response 200 content false) url pre =
      some (pre ++ guessExtension url, content) ∧
    guessExtension url = guessExtensionSpec (pyLower url) ∧
    guessExtension url ∈ extensionCandidates := by
  refine ⟨rfl, rfl, ?_, ?_, ?_, guessExtension_eq_spec url, guessExtension_mem url⟩
  · intro h
    simp [download_image, h]
  · simp [download_image]
  · simp [download_image]

/-- C9 witness: a 404 response at a concrete URL is skipped as none. -/
theorem c9_download_behavior_witness :
    download_image (.response 404 [] false) "http://x/a.png" "img_1" = none :=
  (c9_download_behavior "http://x/a.png" "img_1" 404 [] false).2.2.1 (by decide)

/-- C10: a batch carrying the same non-empty id several times records it
exactly once: the committed id list is duplicate-free, holds exactly the
non-empty ids of the batch that were not already seen, and counts each of
its members once. -/
theorem c10_duplicate_ids_once (posts : List Post) (seen : List String) :
    (runOnceScan posts seen []).2.Nodup ∧
    (∀ pid, pid ∈ (runOnceScan posts seen []).2 ↔
      (pid ≠ "" ∧ pid ∉ seen ∧ pid ∈ posts.map Post.idStr)) ∧
    (∀ pid, pid ∈ (runOnceScan posts seen []).2 →
      List.count pid (runOnceScan posts seen []).2 = 1) := by
  rw [runOnceScan_newIds]
  refine ⟨dedupF_nodup _, ?_, ?_⟩
  · intro pid
    rw [dedupF_mem]
    simp only [diffNewSpec, List.mem_filter, decide_eq_true_eq]
    tauto
  · intro pid h
    exact List.count_eq_one_of_mem (dedupF_nodup _) h

/-- C10 witness: a batch with a duplicated id commits it once. -/
theorem c10_duplicate_ids_once_witness :
    List.count "a" (runOnceScan [⟨"a"⟩, ⟨"a"⟩, ⟨"b"⟩] [] []).2 = 1 :=
  (c10_duplicate_ids_once [⟨"a"⟩, ⟨"a"⟩, ⟨"b"⟩] []).2.2 "a" (by decide)
